import Mathlib

/-!
Verification of the arrowstore columnar query engine against its
natural-language specification.  The TypeScript sources are shallowly
embedded: Arrow cell values become the inductive `Value` (an invalid slot
of an Arrow vector reads back as `null`, modelled by `Value.vnull`),
masks become `List Bool` (one entry per row, `true` = keep), tables become
ordered lists of named columns, and the lazy pipeline becomes explicit
state passing with `Except` for thrown errors.
-/

namespace AStore

/-- Scalar values held in Arrow column slots, as seen through
`vector.get(j)`: JS `null` (also covering invalid slots), numbers
(restricted to integers in this model), strings and booleans. -/
inductive Value where
  | vnull : Value
  | vint (n : Int) : Value
  | vstr (s : String) : Value
  | vbool (b : Bool) : Value
  deriving DecidableEq, Repr

/-- The `value` carried by a basic filter: a scalar, an array (used by
the `in` operator), or JS `undefined` (which reaches filter values through
deserialization of a serialized field filter missing its `value` key).
Mirrors the untyped `value: any` of `BasicFilter` in filter-helpers;
`undef` is distinct from null because `evaluateBasicFilter` tests
`value === null` with strict equality. -/
inductive FValue where
  | scalar (v : Value) : FValue
  | arr (vs : List Value) : FValue
  | undef : FValue
  deriving DecidableEq, Repr

/-- A basic field filter `{op, value}`; `op` is kept as a string exactly as
in the source, so that the unhandled-operator fallback is representable. -/
structure BasicFilter where
  op : String
  value : FValue
  deriving DecidableEq, Repr

/-- One named column of a table (an Arrow vector plus its field name).
`vals` lists the per-row cells; a `vnull` entry models an invalid slot
(`isValid(j) = false`, `get(j) = null`). -/
structure Column where
  name : String
  vals : List Value
  deriving DecidableEq, Repr

/-- Read cell `j` of a column, as `vector.get(j)` does (out of range is
irrelevant to the claims; it defaults to null). -/
def colGet (c : Column) (j : Nat) : Value :=
  c.vals.getD j Value.vnull

/-- JS strict equality `===` between two cell values (the model has no NaN,
so `===` is plain decidable equality; values of distinct types are never
equal). -/
def jsEqV (a b : Value) : Bool :=
  decide (a = b)

/-- JS strict equality between a cell and a filter value: an array filter
value is a distinct object and never `===` a cell read from a vector, and
no cell is ever `===` undefined (an invalid slot reads back as null). -/
def jsEqF (cell : Value) (v : FValue) : Bool :=
  match v with
  | .scalar sv => jsEqV cell sv
  | .arr _ => false
  | .undef => false

/-- JS `String(v)` for a scalar value. -/
def jsStringV : Value → String
  | .vnull => "null"
  | .vint n => toString n
  | .vstr s => s
  | .vbool b => if b then "true" else "false"

/-- JS `String(v)` for a filter value; an array stringifies by joining the
elements with commas, with null elements becoming empty. -/
def jsStringF : FValue → String
  | .scalar v => jsStringV v
  | .arr vs =>
      String.intercalate "," (vs.map (fun v => if v = Value.vnull then "" else jsStringV v))
  | .undef => "undefined"

/-- Whether a cell is a JS number (`typeof cellValue === "number"`). -/
def Value.isNumber : Value → Bool
  | .vint _ => true
  | _ => false

/-- Whether a filter value is a JS number (`typeof value === "number"`). -/
def FValue.isNumber : FValue → Bool
  | .scalar (.vint _) => true
  | _ => false

/-- The numeric comparison `cell OP value` for the four range operators,
on two numbers. -/
def intCmpHolds (op : String) (a b : Int) : Bool :=
  if op = "gt" then decide (b < a)
  else if op = "gte" then decide (b ≤ a)
  else if op = "lt" then decide (a < b)
  else decide (a ≤ b)

/-- Contiguous-substring test `s.includes(pat)`. -/
def strIncludes (s pat : String) : Bool :=
  decide (pat.toList <:+: s.toList)

/-- JS `s.startsWith(pre)` (modelled on the character list so that it
evaluates inside the kernel). -/
def strStartsWith (s pre : String) : Bool :=
  pre.toList.isPrefixOf s.toList

/-- JS `s.endsWith(suf)`. -/
def strEndsWith (s suf : String) : Bool :=
  suf.toList.isSuffixOf s.toList

/-- JS `s.slice(n)`: drop the first n characters. -/
def strDrop (s : String) (n : Nat) : String :=
  ⟨s.toList.drop n⟩

/-- JS `s.slice(0, -n)`: drop the last n characters. -/
def strDropRight (s : String) (n : Nat) : String :=
  ⟨s.toList.take (s.toList.length - n)⟩

/-- The string test of the `contains` / `startsWith` / `endsWith`
operators on a string cell `s` and the stringified filter value. -/
def strTestHolds (op : String) (s pat : String) : Bool :=
  if op = "contains" then strIncludes s pat
  else if op = "startsWith" then strStartsWith s pat
  else strEndsWith s pat

/-- JS relational comparison `cellValue OP value` as reached by the
gt/gte/lt/lte branch after the null and number-type guards: numbers compare
numerically, strings lexicographically by code unit, booleans coerce to
0/1.  The remaining mixed-type coercion cases (never prescribed by the
spec, and unreachable for a typed Arrow column after the numeric guard)
are modelled as not holding. -/
def jsRelHolds (op : String) (cell : Value) (value : FValue) : Bool :=
  match cell, value with
  | .vint a, .scalar (.vint b) => intCmpHolds op a b
  | .vstr a, .scalar (.vstr b) => intCmpHolds op (if a < b then 0 else if b < a then 2 else 1) 1
  | .vbool a, .scalar (.vbool b) => intCmpHolds op (if a then 1 else 0) (if b then 1 else 0)
  | _, _ => false

/-- The `eq` branch of `evaluateBasicFilter` (ArrowStore.ts): a null filter
value keeps exactly the null cells; otherwise null cells are cleared and
the rest compare with `===`. -/
def basicKeepEq (value : FValue) (cell : Value) : Bool :=
  if value = .scalar .vnull then decide (cell = .vnull)
  else if cell = .vnull then false
  else jsEqF cell value

/-- The `neq` branch: a null filter value keeps exactly the non-null cells;
otherwise null cells are kept and the rest compare with `!==`. -/
def basicKeepNeq (value : FValue) (cell : Value) : Bool :=
  if value = .scalar .vnull then decide (cell ≠ .vnull)
  else if cell = .vnull then true
  else !(jsEqF cell value)

/-- The gt/gte/lt/lte branch: a null filter value matches no rows, null
cells are cleared, a non-number cell compared against a number value is
cleared, and surviving rows keep iff the comparison holds. -/
def basicKeepCmp (op : String) (value : FValue) (cell : Value) : Bool :=
  if value = .scalar .vnull then false
  else if cell = .vnull then false
  else if !cell.isNumber && value.isNumber then false
  else jsRelHolds op cell value

/-- The contains/startsWith/endsWith branch: a null filter value matches no
rows, null cells are cleared, non-string cells are cleared, and a string
cell keeps iff the string test against `String(value)` holds. -/
def basicKeepStr (op : String) (value : FValue) (cell : Value) : Bool :=
  if value = .scalar .vnull then false
  else if cell = .vnull then false
  else
    match cell with
    | .vstr s => strTestHolds op s (jsStringF value)
    | _ => false

/-- The `in` branch: when the filter value is an array containing null,
null cells are kept outright; otherwise null cells are cleared; a non-null
cell is kept iff the filter value is an array containing it. -/
def basicKeepIn (value : FValue) (cell : Value) : Bool :=
  match value with
  | .arr vs =>
      if Value.vnull ∈ vs then
        if cell = .vnull then true else decide (cell ∈ vs)
      else
        if cell = .vnull then false else decide (cell ∈ vs)
  | .scalar _ => false
  | .undef => false

/-- Per-row keep decision of `evaluateBasicFilter`, dispatching on the
operator string exactly as the source does; unrecognized operators leave
the row untouched (the documented fallback keeps the mask as is). -/
def basicKeep (op : String) (value : FValue) (cell : Value) : Bool :=
  if op = "eq" then basicKeepEq value cell
  else if op = "neq" then basicKeepNeq value cell
  else if op = "gt" ∨ op = "gte" ∨ op = "lt" ∨ op = "lte" then basicKeepCmp op value cell
  else if op = "contains" ∨ op = "startsWith" ∨ op = "endsWith" then basicKeepStr op value cell
  else if op = "in" then basicKeepIn value cell
  else true

/-- The row loop shared by every branch of `evaluateBasicFilter`: rows
already cleared stay cleared (the `mask[j] === 0` short circuit), and a
kept row is cleared when the predicate fails.  The 1000-row batching of
the source visits each index exactly once in order, which this recursion
mirrors. -/
def evalRows (keep : Nat → Bool) : Nat → List Bool → List Bool
  | _, [] => []
  | j, m :: ms => (m && keep j) :: evalRows keep (j + 1) ms

/-- `evaluateBasicFilter` (ArrowStore.ts, lines 386-578): update the mask
over all rows of the column according to the basic filter. -/
def evaluateBasicFilter (f : BasicFilter) (vec : Column) (mask : List Bool) : List Bool :=
  evalRows (fun j => basicKeep f.op f.value (colGet vec j)) 0 mask

/-- The null-policy table of spec section 4.2, written from the wording of
the spec and of claim C1: `some b` where the table prescribes keeping
(`b = true`) or dropping (`b = false`) the row, `none` where the table is
silent (relational or string comparisons whose operand shapes the table
does not cover). -/
def specNullPolicy (op : String) (value : FValue) (cell : Value) : Option Bool :=
  if op = "eq" then
    if value = .scalar .vnull then some (decide (cell = .vnull))
    else if cell = .vnull then some false
    else some (jsEqF cell value)
  else if op = "neq" then
    if value = .scalar .vnull then some (decide (cell ≠ .vnull))
    else if cell = .vnull then some true
    else some (!(jsEqF cell value))
  else if op = "gt" ∨ op = "gte" ∨ op = "lt" ∨ op = "lte" then
    if value = .scalar .vnull then some false
    else if cell = .vnull then some false
    else
      match cell, value with
      | .vint a, .scalar (.vint b) => some (intCmpHolds op a b)
      | _, .scalar (.vint _) => some false
      | _, _ => none
  else if op = "contains" ∨ op = "startsWith" ∨ op = "endsWith" then
    if value = .scalar .vnull then some false
    else if cell = .vnull then some false
    else
      match cell with
      | .vstr s => some (strTestHolds op s (jsStringF value))
      | _ => some false
  else if op = "in" then
    match value with
    | .arr vs => some (if cell = .vnull then decide (Value.vnull ∈ vs) else decide (cell ∈ vs))
    | .scalar _ => some false
    | .undef => some false
  else none

theorem evalRows_getD (keep : Nat → Bool) :
    ∀ (m : List Bool) (i j : Nat),
      (evalRows keep i m).getD j false = (m.getD j false && keep (i + j)) := by
  intro m
  induction m with
  | nil => intro i j; simp [evalRows]
  | cons head tail ih =>
      intro i j
      cases j with
      | zero => simp [evalRows]
      | succ j' =>
          simp only [evalRows, List.getD_cons_succ]
          rw [ih (i + 1) j']
          congr 2
          omega

theorem basicKeep_follows_policy (op : String) (value : FValue) (cell : Value) (b : Bool)
    (hop : op ∈ ["eq", "neq", "gt", "gte", "lt", "lte",
                 "contains", "startsWith", "endsWith", "in"])
    (hspec : specNullPolicy op value cell = some b) :
    basicKeep op value cell = b := by
  simp only [List.mem_cons, List.mem_singleton, List.not_mem_nil, or_false] at hop
  rcases hop with rfl | rfl | rfl | rfl | rfl | rfl | rfl | rfl | rfl | rfl <;>
    rcases value with ⟨v⟩ | vs | - <;> (try cases v) <;> cases cell <;>
    simp_all [specNullPolicy, basicKeep, basicKeepEq, basicKeepNeq, basicKeepCmp,
      basicKeepStr, basicKeepIn, jsRelHolds, jsEqV, jsEqF,
      Value.isNumber, FValue.isNumber]

/-- C1: for every column, row index and basic filter whose operator is one
of the ten documented ones, `evaluateBasicFilter` keeps or drops the row
exactly as the null-policy table of spec section 4.2 prescribes: wherever
the table prescribes a keep bit `b` for the (operator, filter value, cell)
combination, the output mask bit at that row is the input bit ANDed
with `b`. -/
theorem c1_basic_filter_null_policy (op : String) (value : FValue) (vec : Column)
    (mask : List Bool) (j : Nat) (b : Bool)
    (hop : op ∈ ["eq", "neq", "gt", "gte", "lt", "lte",
                 "contains", "startsWith", "endsWith", "in"])
    (hspec : specNullPolicy op value (colGet vec j) = some b) :
    (evaluateBasicFilter ⟨op, value⟩ vec mask).getD j false = (mask.getD j false && b) := by
  unfold evaluateBasicFilter
  rw [evalRows_getD]
  simp only [Nat.zero_add]
  rw [basicKeep_follows_policy op value (colGet vec j) b hop hspec]

/-- Witness for C1 at a concrete input: the `eq` operator with value 30 on
a column `[30, null, 25]` keeps row 0, as the policy table prescribes. -/
theorem c1_basic_filter_null_policy_witness :
    (evaluateBasicFilter ⟨"eq", .scalar (.vint 30)⟩
        ⟨"age", [.vint 30, .vnull, .vint 25]⟩ [true, true, true]).getD 0 false
      = ([true, true, true].getD 0 false && true) :=
  c1_basic_filter_null_policy "eq" (.scalar (.vint 30))
    ⟨"age", [.vint 30, .vnull, .vint 25]⟩ [true, true, true] 0 true
    (by decide) (by decide)

/-- The filter condition tree consumed by the mask evaluator: a basic field
filter, or an AND / OR / NOT combination. -/
inductive FilterCondition where
  | field (name : String) (filter : BasicFilter) : FilterCondition
  | and (cs : List FilterCondition) : FilterCondition
  | or (cs : List FilterCondition) : FilterCondition
  | not (c : FilterCondition) : FilterCondition

/-- A table: a row count plus the named column vectors, in schema order. -/
structure Table where
  numRows : Nat
  cols : List Column
  deriving DecidableEq, Repr

/-- Column lookup by field name (`table.getChild(name)`). -/
def Table.getChild (t : Table) (name : String) : Option Column :=
  t.cols.find? (fun c => c.name == name)

/-- The message produced by `validateField` for a missing column; it names
the missing field and lists the available fields (quote characters around
the field name are omitted from the model). -/
def fieldNotFoundMsg (fieldName : String) (names : List String) : String :=
  "Filter error: Field " ++ fieldName ++
    " does not exist in the table schema. Available fields are: " ++
    String.intercalate ", " names

/-- `validateField`: raise unless the field occurs in the schema column
names. -/
def validateField (names : List String) (fieldName : String) : Except String Unit :=
  if fieldName ∈ names then Except.ok () else Except.error (fieldNotFoundMsg fieldName names)

mutual

/-- `evaluateFilterCondition` (ArrowStore.ts, lines 314-381): narrow the
given mask by the condition.  AND folds the children over the same mask;
OR combines the children evaluated on fresh all-ones masks into an OR-mask
that is ANDed into the parent mask; NOT inverts the child mask before
ANDing it in; a field node validates the field against the schema names,
then applies the basic filter row-wise.  Fresh masks take the length of
the incoming mask, as the `new Uint8Array(mask.length)` allocations do. -/
def evaluateFilterCondition (names : List String) (t : Table) :
    FilterCondition → List Bool → Except String (List Bool)
  | .and cs, mask => evalAndList names t cs mask
  | .or cs, mask =>
      match evalOrList names t cs (List.replicate mask.length false) with
      | .error e => .error e
      | .ok orMask => .ok (List.zipWith (· && ·) mask orMask)
  | .not c, mask =>
      match evaluateFilterCondition names t c (List.replicate mask.length true) with
      | .error e => .error e
      | .ok notMask => .ok (List.zipWith (· && ·) mask (notMask.map (fun x => !x)))
  | .field f b, mask =>
      match validateField names f with
      | .error e => .error e
      | .ok _ =>
          match t.getChild f with
          | none =>
              .error ("Implementation error: Field " ++ f ++
                " exists in schema but not in table data.")
          | some vec => .ok (evaluateBasicFilter b vec mask)

/-- Sequential fold of AND children over one shared mask. -/
def evalAndList (names : List String) (t : Table) :
    List FilterCondition → List Bool → Except String (List Bool)
  | [], mask => .ok mask
  | c :: cs, mask =>
      match evaluateFilterCondition names t c mask with
      | .error e => .error e
      | .ok m1 => evalAndList names t cs m1

/-- OR accumulation: each child runs on a fresh all-ones mask and is OR-ed
into the accumulator (initially all zeros). -/
def evalOrList (names : List String) (t : Table) :
    List FilterCondition → List Bool → Except String (List Bool)
  | [], acc => .ok acc
  | c :: cs, acc =>
      match evaluateFilterCondition names t c (List.replicate acc.length true) with
      | .error e => .error e
      | .ok tmp => evalOrList names t cs (List.zipWith (· || ·) acc tmp)

end

/-- `createComplexFilterMask`: all top-level conditions are implicitly
AND-ed over an initial all-ones mask of the row count. -/
def createComplexFilterMask (names : List String) (t : Table)
    (filters : List FilterCondition) : Except String (List Bool) :=
  evalAndList names t filters (List.replicate t.numRows true)

/-- The mask of a single condition over a table, computed from an all-ones
mask, as in the spec composition laws. -/
def maskOf (names : List String) (t : Table) (c : FilterCondition) :
    Except String (List Bool) :=
  evaluateFilterCondition names t c (List.replicate t.numRows true)

theorem evalRows_length (keep : Nat → Bool) :
    ∀ (m : List Bool) (i : Nat), (evalRows keep i m).length = m.length := by
  intro m
  induction m with
  | nil => intro i; simp [evalRows]
  | cons head tail ih => intro i; simp [evalRows, ih]

theorem zipWith_and_ones_right (x : List Bool) :
    List.zipWith (· && ·) x (List.replicate x.length true) = x := by
  induction x with
  | nil => simp
  | cons head tail ih => simp [List.replicate_succ, ih]

theorem zipWith_and_ones_left (x : List Bool) :
    List.zipWith (· && ·) (List.replicate x.length true) x = x := by
  induction x with
  | nil => simp
  | cons head tail ih => simp [List.replicate_succ, ih]

theorem zipWith_or_zeros_left (x : List Bool) :
    List.zipWith (· || ·) (List.replicate x.length false) x = x := by
  induction x with
  | nil => simp
  | cons head tail ih => simp [List.replicate_succ, ih]

theorem zipWith_and_assoc (a : List Bool) :
    ∀ (b c : List Bool),
      List.zipWith (· && ·) (List.zipWith (· && ·) a b) c
        = List.zipWith (· && ·) a (List.zipWith (· && ·) b c) := by
  induction a with
  | nil => intro b c; simp
  | cons ha ta ih =>
      intro b c
      cases b with
      | nil => simp
      | cons hb tb =>
          cases c with
          | nil => simp
          | cons hc tc => simp [ih, Bool.and_assoc]

theorem evalRows_factor (keep : Nat → Bool) :
    ∀ (m : List Bool) (i : Nat),
      evalRows keep i m
        = List.zipWith (· && ·) m (evalRows keep i (List.replicate m.length true)) := by
  intro m
  induction m with
  | nil => intro i; simp [evalRows]
  | cons head tail ih =>
      intro i
      simp only [List.length_cons, List.replicate_succ, evalRows, List.zipWith_cons_cons,
        Bool.true_and]
      rw [← ih (i + 1)]

mutual

theorem evalCond_len (names : List String) (t : Table) :
    ∀ (c : FilterCondition) (mask r : List Bool),
      evaluateFilterCondition names t c mask = Except.ok r → r.length = mask.length
  | .field f b, mask, r => by
      simp only [evaluateFilterCondition]
      cases validateField names f with
      | error e => simp
      | ok u =>
          cases t.getChild f with
          | none => simp
          | some vec =>
              intro h
              simp only [Except.ok.injEq] at h
              rw [← h, evaluateBasicFilter, evalRows_length]
  | .and cs, mask, r => fun h => evalAndList_len names t cs mask r h
  | .or cs, mask, r => by
      simp only [evaluateFilterCondition]
      cases horl : evalOrList names t cs (List.replicate mask.length false) with
      | error e => simp
      | ok orMask =>
          intro h
          simp only [Except.ok.injEq] at h
          have hlen : orMask.length = mask.length := by
            have := evalOrList_len names t cs (List.replicate mask.length false) orMask horl
            simpa using this
          rw [← h]
          simp [hlen]
  | .not c, mask, r => by
      simp only [evaluateFilterCondition]
      cases hc : evaluateFilterCondition names t c (List.replicate mask.length true) with
      | error e => simp
      | ok notMask =>
          intro h
          simp only [Except.ok.injEq] at h
          have hlen : notMask.length = mask.length := by
            have := evalCond_len names t c (List.replicate mask.length true) notMask hc
            simpa using this
          rw [← h]
          simp [hlen]

theorem evalAndList_len (names : List String) (t : Table) :
    ∀ (cs : List FilterCondition) (mask r : List Bool),
      evalAndList names t cs mask = Except.ok r → r.length = mask.length
  | [], mask, r => by
      simp only [evalAndList, Except.ok.injEq]
      intro h; rw [← h]
  | c :: cs, mask, r => by
      simp only [evalAndList]
      cases hc : evaluateFilterCondition names t c mask with
      | error e => simp
      | ok m1 =>
          intro h
          have h1 := evalCond_len names t c mask m1 hc
          have h2 := evalAndList_len names t cs m1 r h
          omega

theorem evalOrList_len (names : List String) (t : Table) :
    ∀ (cs : List FilterCondition) (acc r : List Bool),
      evalOrList names t cs acc = Except.ok r → r.length = acc.length
  | [], acc, r => by
      simp only [evalOrList, Except.ok.injEq]
      intro h; rw [← h]
  | c :: cs, acc, r => by
      simp only [evalOrList]
      cases hc : evaluateFilterCondition names t c (List.replicate acc.length true) with
      | error e => simp
      | ok tmp =>
          intro h
          have h1 := evalCond_len names t c (List.replicate acc.length true) tmp hc
          have h2 := evalOrList_len names t cs (List.zipWith (· || ·) acc tmp) r h
          simp only [List.length_zipWith, List.length_replicate] at h1 h2
          omega

end

mutual

theorem evalCond_factor (names : List String) (t : Table) :
    ∀ (c : FilterCondition) (mask : List Bool),
      evaluateFilterCondition names t c mask
        = (evaluateFilterCondition names t c (List.replicate mask.length true)).map
            (fun mc => List.zipWith (· && ·) mask mc)
  | .field f b, mask => by
      simp only [evaluateFilterCondition]
      cases validateField names f with
      | error e => simp [Except.map]
      | ok u =>
          cases t.getChild f with
          | none => simp [Except.map]
          | some vec =>
              simp only [Except.map]
              rw [evaluateBasicFilter, evaluateBasicFilter, evalRows_factor]
  | .and cs, mask => evalAndList_factor names t cs mask
  | .or cs, mask => by
      simp only [evaluateFilterCondition, List.length_replicate]
      cases horl : evalOrList names t cs (List.replicate mask.length false) with
      | error e => simp [Except.map]
      | ok orMask =>
          have hlen : orMask.length = mask.length := by
            have := evalOrList_len names t cs (List.replicate mask.length false) orMask horl
            simpa using this
          simp only [Except.map, Except.ok.injEq]
          rw [← hlen, zipWith_and_ones_left]
  | .not c, mask => by
      simp only [evaluateFilterCondition, List.length_replicate]
      cases hc : evaluateFilterCondition names t c (List.replicate mask.length true) with
      | error e => simp [Except.map]
      | ok notMask =>
          have hlen : notMask.length = mask.length := by
            have := evalCond_len names t c (List.replicate mask.length true) notMask hc
            simpa using this
          simp only [Except.map, Except.ok.injEq]
          have hlen2 : (notMask.map (fun x => !x)).length = mask.length := by simp [hlen]
          rw [← hlen2, zipWith_and_ones_left]

theorem evalAndList_factor (names : List String) (t : Table) :
    ∀ (cs : List FilterCondition) (mask : List Bool),
      evalAndList names t cs mask
        = (evalAndList names t cs (List.replicate mask.length true)).map
            (fun mc => List.zipWith (· && ·) mask mc)
  | [], mask => by
      simp only [evalAndList, Except.map]
      rw [zipWith_and_ones_right]
  | c :: cs, mask => by
      simp only [evalAndList]
      rw [evalCond_factor names t c mask]
      cases hc : evaluateFilterCondition names t c (List.replicate mask.length true) with
      | error e => simp [Except.map]
      | ok mc =>
          have hmc : mc.length = mask.length := by
            have := evalCond_len names t c (List.replicate mask.length true) mc hc
            simpa using this
          simp only [Except.map]
          rw [evalAndList_factor names t cs (List.zipWith (· && ·) mask mc)]
          rw [evalAndList_factor names t cs mc]
          have hl : (List.zipWith (· && ·) mask mc).length = mask.length := by
            simp [hmc]
          rw [hl, ← hmc]
          cases evalAndList names t cs (List.replicate mc.length true) with
          | error e => simp [Except.map]
          | ok rest => simp [Except.map, zipWith_and_assoc]

end

/-- C2: over one table, with both conditions evaluating successfully from
an all-ones mask, the mask of `AND [A, B]` is the pointwise AND of the two
masks, the mask of `OR [A, B]` is their pointwise OR, and the mask of
`NOT A` is the pointwise complement of A's mask. -/
theorem c2_mask_composition (names : List String) (t : Table)
    (A B : FilterCondition) (mA mB : List Bool)
    (hA : maskOf names t A = Except.ok mA) (hB : maskOf names t B = Except.ok mB) :
    maskOf names t (.and [A, B]) = Except.ok (List.zipWith (· && ·) mA mB)
      ∧ maskOf names t (.or [A, B]) = Except.ok (List.zipWith (· || ·) mA mB)
      ∧ maskOf names t (.not A) = Except.ok (mA.map (fun x => !x)) := by
  have hAlen : mA.length = t.numRows := by
    have := evalCond_len names t A (List.replicate t.numRows true) mA hA
    simpa using this
  have hBlen : mB.length = t.numRows := by
    have := evalCond_len names t B (List.replicate t.numRows true) mB hB
    simpa using this
  have hA' : evaluateFilterCondition names t A (List.replicate t.numRows true)
      = Except.ok mA := hA
  have hB' : evaluateFilterCondition names t B (List.replicate t.numRows true)
      = Except.ok mB := hB
  refine ⟨?_, ?_, ?_⟩
  · show evalAndList names t [A, B] (List.replicate t.numRows true) = _
    simp only [evalAndList, hA']
    rw [evalCond_factor names t B mA, hAlen, hB']
    simp [Except.map]
  · show evaluateFilterCondition names t (.or [A, B]) (List.replicate t.numRows true) = _
    simp only [evaluateFilterCondition, evalOrList, List.length_replicate, hA']
    have hz : List.zipWith (· || ·) (List.replicate t.numRows false) mA = mA := by
      rw [← hAlen, zipWith_or_zeros_left]
    rw [hz, hAlen, hB']
    simp only [evalOrList, Except.ok.injEq]
    have hl : (List.zipWith (· || ·) mA mB).length = t.numRows := by
      simp [hAlen, hBlen]
    rw [← hl, zipWith_and_ones_left]
  · show evaluateFilterCondition names t (.not A) (List.replicate t.numRows true) = _
    simp only [evaluateFilterCondition, List.length_replicate, hA']
    simp only [Except.ok.injEq]
    have hl : (mA.map (fun x => !x)).length = t.numRows := by simp [hAlen]
    rw [← hl, zipWith_and_ones_left]

/-- Witness for C2 at a concrete table and pair of conditions. -/
theorem c2_mask_composition_witness :
    maskOf ["age"] ⟨3, [⟨"age", [.vint 25, .vnull, .vint 35]⟩]⟩
        (.and [.field "age" ⟨"gt", .scalar (.vint 30)⟩,
               .field "age" ⟨"lt", .scalar (.vint 40)⟩])
      = Except.ok (List.zipWith (· && ·) [false, false, true] [true, false, true]) :=
  (c2_mask_composition ["age"] ⟨3, [⟨"age", [.vint 25, .vnull, .vint 35]⟩]⟩
    (.field "age" ⟨"gt", .scalar (.vint 30)⟩)
    (.field "age" ⟨"lt", .scalar (.vint 40)⟩)
    [false, false, true] [true, false, true]
    (by simp [maskOf, evaluateFilterCondition, validateField, Table.getChild,
      evaluateBasicFilter, evalRows, basicKeep, basicKeepCmp, jsRelHolds, intCmpHolds,
      colGet, Value.isNumber, FValue.isNumber])
    (by simp [maskOf, evaluateFilterCondition, validateField, Table.getChild,
      evaluateBasicFilter, evalRows, basicKeep, basicKeepCmp, jsRelHolds, intCmpHolds,
      colGet, Value.isNumber, FValue.isNumber])).1

/-- One column of a TableSchema: name, type string and optional nullable
flag (metadata omitted; no claim touches it). -/
structure ColumnSchema where
  name : String
  type : String
  nullable : Option Bool
  deriving DecidableEq, Repr

/-- The TableSchema owned by a store handle. -/
structure TableSchema where
  tableName : String
  columns : List ColumnSchema
  deriving DecidableEq, Repr

/-- A queued pipeline operation: `(table, schema) => {table, schema?}`,
possibly throwing (modelled by `Except`). -/
def Step : Type :=
  Table → TableSchema → Except String (Table × Option TableSchema)

/-- The state of an ArrowStore handle: its table, its schema and its queue
of pending operations. -/
structure StoreState where
  table : Table
  schema : TableSchema
  ops : List Step

/-- The inner loop of `resolveTable`: execute the steps in FIFO order,
threading table and schema; a step that returns a schema replaces the
threaded schema, and `this._schema` is assigned the same value at that
moment, so a later failure leaves the handle schema equal to the threaded
schema, which the error therefore carries. -/
def runOps : List Step → Table → TableSchema → Except (String × TableSchema) (Table × TableSchema)
  | [], t, s => .ok (t, s)
  | op :: rest, t, s =>
      match op t s with
      | .error e => .error (e, s)
      | .ok (t', os) => runOps rest t' (os.getD s)

/-- The batch loop of `resolveTable`: the queue is processed in slices of
ten steps (the `batchSize` constant), each slice sequentially; the yield
between batches is a scheduling courtesy with no semantic effect. -/
def runBatches : List Step → Table → TableSchema →
    Except (String × TableSchema) (Table × TableSchema)
  | [], t, s => .ok (t, s)
  | op :: rest, t, s =>
      match runOps ((op :: rest).take 10) t s with
      | .error e => .error e
      | .ok (t', s') => runBatches ((op :: rest).drop 10) t' s'
termination_by ops => ops.length
decreasing_by simp; omega

/-- `resolveTable` (ArrowStore.ts, lines 129-168): an empty queue returns
the current table unchanged; otherwise the queue runs batched.  On success
the queue is cleared and the table and schema stored; on failure the error
is re-raised as thrown, the table and the queue are untouched, and the
schema keeps whatever the successfully executed steps assigned to it. -/
def resolveTable (st : StoreState) : Except String Table × StoreState :=
  if st.ops.isEmpty then (.ok st.table, st)
  else
    match runBatches st.ops st.table st.schema with
    | .ok (t', s') => (.ok t', ⟨t', s', []⟩)
    | .error (e, s') => (.error e, ⟨st.table, s', st.ops⟩)

/-- `createInstance`: the new handle shares the current table and schema
and carries the queue with the new operation appended; nothing executes. -/
def createInstance (st : StoreState) (newOp : Step) : StoreState :=
  ⟨st.table, st.schema, st.ops ++ [newOp]⟩

/-- Manually applying one step to a table and schema, as a caller would do
outside the pipeline; a returned schema replaces the schema. -/
def applyStep (step : Step) (ts : Table × TableSchema) : Except String (Table × TableSchema) :=
  match step ts.1 ts.2 with
  | .error e => .error e
  | .ok (t', os) => .ok (t', os.getD ts.2)

theorem runOps_append (a : List Step) :
    ∀ (b : List Step) (t : Table) (s : TableSchema),
      runOps (a ++ b) t s
        = (match runOps a t s with
           | .error e => .error e
           | .ok (t', s') => runOps b t' s') := by
  induction a with
  | nil => intro b t s; simp [runOps]
  | cons op rest ih =>
      intro b t s
      simp only [List.cons_append, runOps]
      cases op t s with
      | error e => simp
      | ok r => exact ih b r.1 (r.2.getD s)

theorem runBatches_eq_runOps :
    ∀ (ops : List Step) (t : Table) (s : TableSchema),
      runBatches ops t s = runOps ops t s
  | [], t, s => by simp [runBatches, runOps]
  | op :: rest, t, s => by
      rw [runBatches]
      have hsplit : (op :: rest).take 10 ++ (op :: rest).drop 10 = op :: rest :=
        List.take_append_drop 10 (op :: rest)
      conv =>
        rhs
        rw [← hsplit]
      rw [runOps_append]
      cases runOps ((op :: rest).take 10) t s with
      | error e => simp
      | ok r =>
          simp only
          exact runBatches_eq_runOps ((op :: rest).drop 10) r.1 r.2
termination_by ops => ops.length
decreasing_by simp; omega

/-- C3: resolving a handle whose queue holds S1 then S2 produces exactly
the table obtained by applying S1 to the base table and schema and then S2
to the output of S1; the steps run in FIFO order, each exactly once. -/
theorem c3_pipeline_order (S1 S2 : Step) (t : Table) (s : TableSchema) :
    (resolveTable ⟨t, s, [S1, S2]⟩).1
      = (applyStep S1 (t, s) >>= applyStep S2).map Prod.fst := by
  simp only [resolveTable, List.isEmpty_cons, Bool.false_eq_true, if_false,
    runBatches_eq_runOps, runOps, applyStep]
  cases h1 : S1 t s with
  | error e => simp [Except.map, Bind.bind, Except.bind]
  | ok r1 =>
      cases h2 : S2 r1.1 (r1.2.getD s) with
      | error e => simp [runOps, h2, Except.map, Bind.bind, Except.bind, applyStep]
      | ok r2 => simp [runOps, h2, Except.map, Bind.bind, Except.bind, applyStep]

/-- C4 as stated is violated: a queue whose first step succeeds and
returns a fresh schema, followed by a step that throws, leaves the handle
schema changed after the failed resolution (while the claim demands the
schema be unchanged). -/
theorem c4_schema_partial_effect_counterexample :
    ((resolveTable ⟨⟨1, [⟨"a", [.vint 1]⟩]⟩, ⟨"t", []⟩,
        [fun t _ => .ok (t, some ⟨"changed", []⟩),
         fun _ _ => .error "boom"]⟩).2.schema ≠ ⟨"t", []⟩)
      ∧ (resolveTable ⟨⟨1, [⟨"a", [.vint 1]⟩]⟩, ⟨"t", []⟩,
          [fun t _ => .ok (t, some ⟨"changed", []⟩),
           fun _ _ => .error "boom"]⟩).1 = .error "boom" := by
  constructor
  · intro h
    rw [resolveTable] at h
    simp [runBatches_eq_runOps, runOps] at h
  · rw [resolveTable]
    simp [runBatches_eq_runOps, runOps]

/-- C4 amended: if the steps before `bad` succeed (producing table `t1`
and threaded schema `s1`) and `bad` throws `e`, resolution aborts at once
(the steps after `bad` never run), the error is re-raised unchanged by the
resolver (each operation wraps its own errors before throwing), the
handle table and its queue are untouched (so a later resolve re-attempts
the same queue), and the handle schema is left at `s1`, the schema
produced by the steps that succeeded before the failure. -/
theorem c4_failure_semantics (pre post : List Step) (bad : Step)
    (t t1 : Table) (s s1 : TableSchema) (e : String)
    (hpre : runOps pre t s = .ok (t1, s1)) (hbad : bad t1 s1 = .error e) :
    resolveTable ⟨t, s, pre ++ bad :: post⟩
      = (.error e, ⟨t, s1, pre ++ bad :: post⟩) := by
  have hne : (pre ++ bad :: post).isEmpty = false := by
    cases pre <;> simp
  rw [resolveTable]
  simp only [hne, Bool.false_eq_true, if_false, runBatches_eq_runOps]
  rw [runOps_append, hpre]
  simp only [runOps, hbad]

/-- Witness for C4 amended at a concrete queue of two steps. -/
theorem c4_failure_semantics_witness :
    resolveTable ⟨⟨1, [⟨"a", [.vint 1]⟩]⟩, ⟨"t", []⟩,
        [fun t _ => .ok (t, some ⟨"changed", []⟩)] ++
          (fun _ _ => .error "boom") :: []⟩
      = (.error "boom", ⟨⟨1, [⟨"a", [.vint 1]⟩]⟩, ⟨"changed", []⟩,
          [fun t _ => .ok (t, some ⟨"changed", []⟩)] ++
            (fun _ _ => .error "boom") :: []⟩) :=
  c4_failure_semantics [fun t _ => .ok (t, some ⟨"changed", []⟩)] []
    (fun _ _ => .error "boom") ⟨1, [⟨"a", [.vint 1]⟩]⟩ ⟨1, [⟨"a", [.vint 1]⟩]⟩
    ⟨"t", []⟩ ⟨"changed", []⟩ "boom" rfl rfl

/-- `applyFilterMask` (ArrowStore.ts, lines 586-650): count the kept rows;
zero kept rows returns `makeTable({})`, the empty table with no columns;
all rows kept returns the input table itself; otherwise each schema column
is rebuilt from the kept row indices in order (an invalid slot is copied
as null, which is what reading it yields in this model). -/
def applyFilterMask (t : Table) (mask : List Bool) : Table :=
  let resultRowCount := mask.count true
  if resultRowCount = 0 then ⟨0, []⟩
  else if resultRowCount = t.numRows then t
  else
    ⟨resultRowCount,
      t.cols.map (fun c =>
        ⟨c.name,
          ((List.range t.numRows).filter (fun j => mask.getD j false)).map
            (fun j => colGet c j)⟩)⟩

/-- C5 as stated is violated: on a one-column table with an all-zero mask,
`applyFilterMask` returns `makeTable({})`, whose column list is empty, so
the output schema does not carry the column names of the input table. -/
theorem c5_empty_mask_schema_counterexample :
    (applyFilterMask ⟨1, [⟨"a", [.vint 1]⟩]⟩ [false]).cols.map Column.name
      ≠ (Table.mk 1 [⟨"a", [.vint 1]⟩]).cols.map Column.name := by
  decide

/-- C5 amended: a mask keeping zero rows yields `makeTable({})`, the empty
table with no columns (the input schema is not preserved); a mask keeping
all rows of a non-empty table returns the input table itself, unchanged. -/
theorem c5_apply_mask_boundary (t : Table) (mask : List Bool) :
    (mask.count true = 0 → applyFilterMask t mask = ⟨0, []⟩)
      ∧ (mask.count true = t.numRows → 0 < t.numRows → applyFilterMask t mask = t) := by
  constructor
  · intro h
    simp [applyFilterMask, h]
  · intro h hn
    have h0 : ¬(mask.count true = 0) := by omega
    simp [applyFilterMask, h0, h]
    intro hz
    omega

/-- Witness for C5 amended at a concrete one-column table. -/
theorem c5_apply_mask_boundary_witness :
    applyFilterMask ⟨1, [⟨"a", [.vint 1]⟩]⟩ [false] = ⟨0, []⟩
      ∧ applyFilterMask ⟨1, [⟨"a", [.vint 1]⟩]⟩ [true] = ⟨1, [⟨"a", [.vint 1]⟩]⟩ :=
  ⟨(c5_apply_mask_boundary ⟨1, [⟨"a", [.vint 1]⟩]⟩ [false]).1 (by decide),
   (c5_apply_mask_boundary ⟨1, [⟨"a", [.vint 1]⟩]⟩ [true]).2 (by decide) (by decide)⟩

/-- Column names of a TableSchema, as used by `validateField`. -/
def schemaNames (s : TableSchema) : List String :=
  s.columns.map (fun c => c.name)

mutual

/-- `validateFilterCondition`: walk the condition and validate every field
reference against the schema names. -/
def validateFilterCondition (names : List String) : FilterCondition → Except String Unit
  | .and cs => validateFilterList names cs
  | .or cs => validateFilterList names cs
  | .not c => validateFilterCondition names c
  | .field f _ => validateField names f

/-- `validateFilterFields`: validate each top-level condition in order. -/
def validateFilterList (names : List String) : List FilterCondition → Except String Unit
  | [] => .ok ()
  | c :: cs =>
      match validateFilterCondition names c with
      | .error e => .error e
      | .ok _ => validateFilterList names cs

end

mutual

/-- All field names referenced by a condition, in walk order. -/
def condFields : FilterCondition → List String
  | .field f _ => [f]
  | .and cs => condFieldsList cs
  | .or cs => condFieldsList cs
  | .not c => condFields c

/-- All field names referenced by a condition list, in walk order. -/
def condFieldsList : List FilterCondition → List String
  | [] => []
  | c :: cs => condFields c ++ condFieldsList cs

end

/-- The executor queued by `filter`: validate all field references first,
then build the mask and apply it; any error is rethrown wrapped in the
filtering context.  The returned schema is the threaded schema. -/
def filterStep (conds : List FilterCondition) : Step := fun t s =>
  match validateFilterList (schemaNames s) conds with
  | .error e => .error ("Error filtering data: " ++ e)
  | .ok _ =>
      match createComplexFilterMask (schemaNames s) t conds with
      | .error e => .error ("Error filtering data: " ++ e)
      | .ok mask => .ok (applyFilterMask t mask, some s)

/-- A row as materialized by `table.get(i)`: the named cells in column
order. -/
def tableGetRow (t : Table) (i : Nat) : List (String × Value) :=
  t.cols.map (fun c => (c.name, colGet c i))

/-- One step of the group-bucket construction: null (and undefined) group
values are skipped; a known value appends the row index to its bucket, a
new value opens a bucket at the end (JS `Set` and `Map` preserve insertion
order). -/
def addGroup (acc : List (Value × List Nat)) (p : Nat × Value) : List (Value × List Nat) :=
  if p.2 = Value.vnull then acc
  else if acc.any (fun q => q.1 == p.2) then
    acc.map (fun q => if q.1 == p.2 then (q.1, q.2 ++ [p.1]) else q)
  else acc ++ [(p.2, [p.1])]

/-- First pass of `groupBy`: distinct non-null values of the grouping
column in first-occurrence order, each with its row indices. -/
def groupBuckets (vals : List Value) : List (Value × List Nat) :=
  vals.enum.foldl addGroup []

/-- The executor queued by `groupBy` (ArrowStore.ts, lines 1208-1214 for
the missing-column branch): when the grouping column is absent from the
table the step returns `new Table(table.schema)`, an empty table with the
same columns, raising nothing.  Otherwise one row per distinct non-null
group value is produced, with one column per aggregation; aggregations
are modelled as opaque reducers over the materialized bucket rows (the
name-dispatched vectorized fast paths of the source only reimplement the
built-in helper reducers and are not needed by any claim). -/
def groupByStep (field : String)
    (aggs : List (String × (List (List (String × Value)) → Value))) : Step := fun t _s =>
  match t.getChild field with
  | none => .ok (⟨0, t.cols.map (fun c => ⟨c.name, []⟩)⟩, none)
  | some vec =>
      let buckets := groupBuckets vec.vals
      .ok (⟨buckets.length,
        ⟨field, buckets.map (fun b => b.1)⟩ ::
          aggs.map (fun a =>
            ⟨a.1, buckets.map (fun b => a.2 (b.2.map (tableGetRow t)))⟩)⟩, none)

mutual

theorem validateFC_ok_iff (names : List String) :
    ∀ (c : FilterCondition),
      validateFilterCondition names c = .ok () ↔ ∀ f ∈ condFields c, f ∈ names
  | .field f b => by
      simp only [validateFilterCondition, validateField, condFields, List.mem_singleton]
      split <;> simp_all
  | .and cs => by
      simp only [validateFilterCondition, condFields]
      exact validateFL_ok_iff names cs
  | .or cs => by
      simp only [validateFilterCondition, condFields]
      exact validateFL_ok_iff names cs
  | .not c => by
      simp only [validateFilterCondition, condFields]
      exact validateFC_ok_iff names c

theorem validateFL_ok_iff (names : List String) :
    ∀ (cs : List FilterCondition),
      validateFilterList names cs = .ok () ↔ ∀ f ∈ condFieldsList cs, f ∈ names
  | [] => by simp [validateFilterList, condFieldsList]
  | c :: cs => by
      simp only [validateFilterList, condFieldsList, List.mem_append]
      cases hc : validateFilterCondition names c with
      | error e =>
          have hnot : ¬(∀ f ∈ condFields c, f ∈ names) := by
            intro hall
            have := (validateFC_ok_iff names c).2 hall
            rw [hc] at this
            exact Except.noConfusion this
          constructor
          · intro h; exact absurd h Except.noConfusion
          · intro h
            exact absurd (fun f hf => h f (Or.inl hf)) hnot
      | ok u =>
          cases u
          have hok := (validateFC_ok_iff names c).1 hc
          rw [validateFL_ok_iff names cs]
          constructor
          · intro h f hf
            rcases hf with hf | hf
            · exact hok f hf
            · exact h f hf
          · intro h f hf
            exact h f (Or.inr hf)

end

mutual

theorem validateFC_error (names : List String) :
    ∀ (c : FilterCondition) (m : String), validateFilterCondition names c = .error m →
      ∃ f, f ∈ condFields c ∧ f ∉ names ∧ m = fieldNotFoundMsg f names
  | .field f b, m => by
      simp only [validateFilterCondition, validateField, condFields, List.mem_singleton]
      split
      · intro h; exact absurd h Except.noConfusion
      · intro h
        simp only [Except.error.injEq] at h
        exact ⟨f, rfl, by assumption, h.symm⟩
  | .and cs, m => fun h => validateFL_error names cs m h
  | .or cs, m => fun h => validateFL_error names cs m h
  | .not c, m => fun h => validateFC_error names c m h

theorem validateFL_error (names : List String) :
    ∀ (cs : List FilterCondition) (m : String), validateFilterList names cs = .error m →
      ∃ f, f ∈ condFieldsList cs ∧ f ∉ names ∧ m = fieldNotFoundMsg f names
  | [], m => by
      simp [validateFilterList]
  | c :: cs, m => by
      simp only [validateFilterList, condFieldsList]
      cases hc : validateFilterCondition names c with
      | error e =>
          intro h
          simp only [Except.error.injEq] at h
          obtain ⟨f, hf, hnot, hm⟩ := validateFC_error names c e hc
          exact ⟨f, List.mem_append_left _ hf, hnot, h ▸ hm⟩
      | ok u =>
          intro h
          obtain ⟨f, hf, hnot, hm⟩ := validateFL_error names cs m h
          exact ⟨f, List.mem_append_right _ hf, hnot, hm⟩

end

/-- C6 amended: a filter whose conditions reference a column missing from
the schema is rejected by the eager validation pass: validation succeeds
exactly when every referenced field is a schema column, a validation error
always names a missing field via the FieldNotFound message listing the
available fields, and the queued filter step then fails with that wrapped
message for every table, before any mask work (the error does not depend
on the table data at all).  The groupBy part of the original claim is
refuted separately: a missing grouping column yields an empty table, not
an error. -/
theorem c6_filter_field_validation (names : List String) (conds : List FilterCondition) :
    (validateFilterList names conds = .ok () ↔ ∀ f ∈ condFieldsList conds, f ∈ names)
      ∧ (∀ m, validateFilterList names conds = .error m →
          (∃ f, f ∈ condFieldsList conds ∧ f ∉ names ∧ m = fieldNotFoundMsg f names)
            ∧ ∀ (t : Table) (s : TableSchema), schemaNames s = names →
                filterStep conds t s = .error ("Error filtering data: " ++ m)) := by
  refine ⟨validateFL_ok_iff names conds, ?_⟩
  intro m hm
  refine ⟨validateFL_error names conds m hm, ?_⟩
  intro t s hs
  rw [filterStep]
  rw [hs, hm]

/-- Witness for C6 amended: a filter on a column `b` absent from the
schema `[a]` fails with the FieldNotFound message, independent of the
table. -/
theorem c6_filter_field_validation_witness :
    filterStep [.field "b" ⟨"eq", .scalar (.vint 1)⟩] ⟨1, [⟨"a", [.vint 1]⟩]⟩
        ⟨"t", [⟨"a", "integer", none⟩]⟩
      = .error ("Error filtering data: " ++ fieldNotFoundMsg "b" ["a"]) := by
  have h := (c6_filter_field_validation ["a"] [.field "b" ⟨"eq", .scalar (.vint 1)⟩]).2
    (fieldNotFoundMsg "b" ["a"])
    (by simp [validateFilterList, validateFilterCondition, validateField])
  exact h.2 ⟨1, [⟨"a", [.vint 1]⟩]⟩ ⟨"t", [⟨"a", "integer", none⟩]⟩ (by simp [schemaNames])

/-- C6 as stated is violated for groupBy: grouping by a column absent from
the table raises nothing; the queued step resolves successfully to an
empty table with the input columns. -/
theorem c6_groupby_missing_field_counterexample :
    (resolveTable ⟨⟨1, [⟨"a", [.vint 1]⟩]⟩, ⟨"t", [⟨"a", "integer", none⟩]⟩,
        [groupByStep "missing" []]⟩).1
      = .ok ⟨0, [⟨"a", []⟩]⟩ := by
  rw [resolveTable]
  simp [runBatches_eq_runOps, runOps, groupByStep, Table.getChild]

/-- The pass-through operation queued when filter deserialization fails:
it returns the incoming table unchanged and no schema. -/
def identityStep : Step := fun t _ => .ok (t, none)

/-- A parsed JSON document: the output domain of the `JSON.parse`
builtin (numbers restricted to integers, like the cell model). -/
inductive JValue where
  | jnull : JValue
  | jnum (n : Int) : JValue
  | jstr (s : String) : JValue
  | jbool (b : Bool) : JValue
  | jarr (xs : List JValue) : JValue
  | jobj (fields : List (String × JValue)) : JValue

/-- JS member access `v[key]` on a parsed JSON value: an object yields the
field or undefined (`none`); member access on any other non-null value
also yields undefined (reading a member of null or undefined throws, which
the call sites below handle). -/
def jGet : JValue → String → Option JValue
  | .jobj fields, k => (fields.find? (fun p => p.1 == k)).map Prod.snd
  | _, _ => none

theorem jGet_sizeOf (s : JValue) (k : String) (v : JValue)
    (h : jGet s k = some v) : sizeOf v < sizeOf s := by
  cases s with
  | jobj fields =>
      simp only [jGet, Option.map_eq_some'] at h
      obtain ⟨p, hfind, hv⟩ := h
      have hmem : p ∈ fields := List.mem_of_find?_eq_some hfind
      have h1 : sizeOf p < sizeOf fields := List.sizeOf_lt_of_mem hmem
      obtain ⟨a, b⟩ := p
      simp only at hv
      subst hv
      simp only [Prod.mk.sizeOf_spec] at h1
      simp only [JValue.jobj.sizeOf_spec]
      omega
  | jnull => simp [jGet] at h
  | jnum n => simp [jGet] at h
  | jstr t => simp [jGet] at h
  | jbool b => simp [jGet] at h
  | jarr xs => simp [jGet] at h

/-- The field name of a deserialized field filter.  The source stores the
raw value; a missing or non-string field is never strictly equal to any
schema column name in `validateField`, exactly like the display string it
is folded to here (a schema column literally named undefined is the one
corner this identification does not cover). -/
def jFieldName : Option JValue → String
  | some (.jstr s) => s
  | _ => "undefined"

/-- The operator of a deserialized basic filter.  A missing or non-string
op matches no strict string comparison in `evaluateBasicFilter`, behaving
exactly like the unrecognized-operator string it is folded to here. -/
def jOpString : Option JValue → String
  | some (.jstr s) => s
  | _ => "undefined"

/-- One element of a deserialized `in` array.  Nested composites are
outside the mask evaluator value domain; they are folded to their JS
display strings (exact for the `String` coercion of the string operators,
approximate for strict-equality membership, which no claim exercises). -/
def jElemValue : JValue → Value
  | .jnull => .vnull
  | .jnum n => .vint n
  | .jstr s => .vstr s
  | .jbool b => .vbool b
  | .jarr _ => .vstr ""
  | .jobj _ => .vstr "[object Object]"

/-- A deserialized filter `value`: JSON scalars map to evaluator scalars,
arrays to arrays, a missing value (JS undefined) to `undef`; an object
value is folded to `undef` as well, whose evaluator behavior coincides
with an object reference except for the stringified pattern of the string
operators. -/
def jToFValue : Option JValue → FValue
  | none => .undef
  | some .jnull => .scalar .vnull
  | some (.jnum n) => .scalar (.vint n)
  | some (.jstr s) => .scalar (.vstr s)
  | some (.jbool b) => .scalar (.vbool b)
  | some (.jarr xs) => .arr (xs.map jElemValue)
  | some (.jobj _) => .undef

theorem jvalue_sizeOf_pos (v : JValue) : 0 < sizeOf v := by
  cases v <;> simp_arith

theorem jlist_sizeOf_pos (xs : List JValue) : 0 < sizeOf xs := by
  cases xs <;> simp_arith

mutual

/-- `deserializeFilter` (filter-serialization source, staged inside
ArrowStore.ts): switch on `serialized.type` without validating the rest
of the shape.  A field entry copies `field`, `filter.op` and
`filter.value` untouched (throwing only when `filter` itself is missing
or null); and/or map over `conditions` (throwing when that is not an
array); not recurses on `condition`; anything else throws the
unknown-type error.  Reading `type` off null or undefined throws. -/
def deserializeFilter : Option JValue → Except String FilterCondition
  | none => .error "TypeError: cannot read properties of undefined"
  | some .jnull => .error "TypeError: cannot read properties of null"
  | some s =>
      match jGet s "type" with
      | some (.jstr tag) =>
          if tag = "field" then
            match jGet s "filter" with
            | none => .error "TypeError: cannot read properties of undefined"
            | some .jnull => .error "TypeError: cannot read properties of null"
            | some f =>
                .ok (.field (jFieldName (jGet s "field"))
                  ⟨jOpString (jGet f "op"), jToFValue (jGet f "value")⟩)
          else if tag = "and" then
            match hc : jGet s "conditions" with
            | some (.jarr cs) => (deserializeFilterList cs).map FilterCondition.and
            | _ => .error "TypeError: serialized.conditions.map is not a function"
          else if tag = "or" then
            match hc : jGet s "conditions" with
            | some (.jarr cs) => (deserializeFilterList cs).map FilterCondition.or
            | _ => .error "TypeError: serialized.conditions.map is not a function"
          else if tag = "not" then
            (deserializeFilter (jGet s "condition")).map FilterCondition.not
          else .error "Unknown serialized filter type"
      | _ => .error "Unknown serialized filter type"
termination_by o => sizeOf o
decreasing_by
  all_goals
    first
    | (have h1 := jGet_sizeOf f "conditions" (.jarr cs) hc
       simp only [JValue.jarr.sizeOf_spec] at h1
       simp only [Option.some.sizeOf_spec]
       omega)
    | (cases hcond : jGet f "condition" with
       | none =>
           have h2 := jvalue_sizeOf_pos f
           simp only [Option.some.sizeOf_spec, Option.none.sizeOf_spec]
           omega
       | some c =>
           have h1 := jGet_sizeOf f "condition" c hcond
           simp only [Option.some.sizeOf_spec]
           omega)

/-- JS `Array.prototype.map` over the serialized conditions: the first
element whose deserialization throws aborts the whole call. -/
def deserializeFilterList : List JValue → Except String (List FilterCondition)
  | [] => .ok []
  | x :: xs =>
      match deserializeFilter (some x) with
      | .error e => .error e
      | .ok c =>
          match deserializeFilterList xs with
          | .error e => .error e
          | .ok rest => .ok (c :: rest)
termination_by xs => sizeOf xs
decreasing_by
  all_goals
    have h2 := jlist_sizeOf_pos xs
    simp only [Option.some.sizeOf_spec, List.cons.sizeOf_spec]
    omega

end

/-- `deserializeFilters` (filter-serialization source, staged inside
ArrowStore.ts): map `deserializeFilter` over the parsed value; the
unvalidated cast means a non-array parse result crashes the `.map`
call. -/
def deserializeFilters : JValue → Except String (List FilterCondition)
  | .jarr xs => deserializeFilterList xs
  | _ => .error "TypeError: parsed.map is not a function"

/-- `filtersFromJson` (filter-serialization source, staged inside
ArrowStore.ts): `JSON.parse` then `deserializeFilters`.  `JSON.parse` is
the JS builtin, abstracted as the `parse` argument with `none` standing
for its SyntaxError. -/
def filtersFromJson (parse : String → Option JValue) (s : String) :
    Except String (List FilterCondition) :=
  match parse s with
  | none => .error "SyntaxError: invalid JSON"
  | some v => deserializeFilters v

/-- `filterFromJson` (ArrowStore.ts, lines 1698-1712): parse the JSON and
filter by the result; if parsing or deserialization throws, catch, log,
and return a store with a pass-through operation queued instead. -/
def filterFromJson (st : StoreState) (parse : String → Option JValue)
    (s : String) : StoreState :=
  match filtersFromJson parse s with
  | .ok fs => createInstance st (filterStep fs)
  | .error _ => createInstance st identityStep

theorem resolve_append_identity (st : StoreState) :
    (resolveTable ⟨st.table, st.schema, st.ops ++ [identityStep]⟩).1
      = (resolveTable st).1 := by
  obtain ⟨t, s, ops⟩ := st
  simp only [resolveTable]
  cases ops with
  | nil => simp [runBatches_eq_runOps, runOps, identityStep]
  | cons op rest =>
      have h1 : ((op :: rest) ++ [identityStep]).isEmpty = false := rfl
      have h2 : (op :: rest).isEmpty = false := rfl
      simp only [h1, h2, Bool.false_eq_true, if_false, runBatches_eq_runOps]
      rw [runOps_append]
      cases runOps (op :: rest) t s with
      | error e => simp
      | ok r => simp [runOps, identityStep]

/-- C9 as stated is violated: the input below is not a valid JSON
serialization of a filter-condition array (the field filter has no
`value`), yet deserialization does not throw; `filterFromJson` queues a
real filter whose value is undefined rather than the identity operation,
and resolving drops every row (eq against undefined matches nothing)
instead of yielding the rows of the original store. -/
theorem c9_invalid_filter_not_identity_counterexample :
    filtersFromJson
        (fun _ => some (.jarr [.jobj [("type", .jstr "field"), ("field", .jstr "a"),
          ("filter", .jobj [("op", .jstr "eq")])]]))
        "[\x7b\"type\":\"field\",\"field\":\"a\",\"filter\":\x7b\"op\":\"eq\"\x7d\x7d]"
      = .ok [.field "a" ⟨"eq", .undef⟩]
      ∧ (resolveTable (filterFromJson
          ⟨⟨1, [⟨"a", [.vint 1]⟩]⟩, ⟨"t", [⟨"a", "integer", none⟩]⟩, []⟩
          (fun _ => some (.jarr [.jobj [("type", .jstr "field"), ("field", .jstr "a"),
            ("filter", .jobj [("op", .jstr "eq")])]]))
          "[\x7b\"type\":\"field\",\"field\":\"a\",\"filter\":\x7b\"op\":\"eq\"\x7d\x7d]")).1
        = .ok ⟨0, []⟩
      ∧ (resolveTable ⟨⟨1, [⟨"a", [.vint 1]⟩]⟩, ⟨"t", [⟨"a", "integer", none⟩]⟩, []⟩).1
        = .ok ⟨1, [⟨"a", [.vint 1]⟩]⟩ := by
  have hdes : filtersFromJson
      (fun _ => some (.jarr [.jobj [("type", .jstr "field"), ("field", .jstr "a"),
        ("filter", .jobj [("op", .jstr "eq")])]]))
      "[\x7b\"type\":\"field\",\"field\":\"a\",\"filter\":\x7b\"op\":\"eq\"\x7d\x7d]"
      = .ok [.field "a" ⟨"eq", .undef⟩] := by
    simp [filtersFromJson, deserializeFilters, deserializeFilterList, deserializeFilter,
      jGet, jFieldName, jOpString, jToFValue]
  refine ⟨hdes, ?_, ?_⟩
  · rw [filterFromJson, hdes]
    rw [resolveTable]
    simp [createInstance, runBatches_eq_runOps, runOps, filterStep, schemaNames,
      validateFilterList, validateFilterCondition, validateField,
      createComplexFilterMask, evalAndList, evaluateFilterCondition, Table.getChild,
      evaluateBasicFilter, evalRows, basicKeep, basicKeepEq, jsEqF, colGet,
      applyFilterMask]
  · rw [resolveTable]
    simp

/-- C9 amended: `filterFromJson` itself never throws.  Whenever
`JSON.parse` or `deserializeFilters` throws (invalid JSON, a non-array, an
element with an unknown, missing or unreadable type tag, a field entry
without a filter object, and/or entries without an array of conditions),
the error is caught and the returned store carries the old queue plus one
pass-through operation, so resolving it yields exactly the table of the
original store.  But deserialization validates no more than that: any
input it accepts, valid serialization or not, queues a real filter built
from the deserialized conditions, not the identity operation. -/
theorem c9_filter_from_json_error_handling (st : StoreState)
    (parse : String → Option JValue) (s : String) :
    (∀ e, filtersFromJson parse s = .error e →
        (filterFromJson st parse s).ops = st.ops ++ [identityStep]
          ∧ (resolveTable (filterFromJson st parse s)).1 = (resolveTable st).1)
      ∧ (∀ fs, filtersFromJson parse s = .ok fs →
          filterFromJson st parse s = createInstance st (filterStep fs)) := by
  constructor
  · intro e he
    have hstep : filterFromJson st parse s = createInstance st identityStep := by
      rw [filterFromJson, he]
    rw [hstep]
    exact ⟨rfl, resolve_append_identity st⟩
  · intro fs hfs
    rw [filterFromJson, hfs]

/-- Witness for C9 amended: a parse failure (invalid JSON) takes the
identity path on a concrete store, and a successful deserialization
queues the real filter. -/
theorem c9_filter_from_json_error_handling_witness :
    ((filterFromJson ⟨⟨1, [⟨"a", [.vint 1]⟩]⟩, ⟨"t", []⟩, []⟩ (fun _ => none)
        "not json").ops = [] ++ [identityStep]
      ∧ (resolveTable (filterFromJson ⟨⟨1, [⟨"a", [.vint 1]⟩]⟩, ⟨"t", []⟩, []⟩
          (fun _ => none) "not json")).1
        = (resolveTable ⟨⟨1, [⟨"a", [.vint 1]⟩]⟩, ⟨"t", []⟩, []⟩).1)
      ∧ filterFromJson ⟨⟨1, [⟨"a", [.vint 1]⟩]⟩, ⟨"t", []⟩, []⟩
          (fun _ => some (.jarr [])) "[]"
        = createInstance ⟨⟨1, [⟨"a", [.vint 1]⟩]⟩, ⟨"t", []⟩, []⟩ (filterStep []) :=
  ⟨(c9_filter_from_json_error_handling ⟨⟨1, [⟨"a", [.vint 1]⟩]⟩, ⟨"t", []⟩, []⟩
      (fun _ => none) "not json").1 "SyntaxError: invalid JSON" rfl,
   (c9_filter_from_json_error_handling ⟨⟨1, [⟨"a", [.vint 1]⟩]⟩, ⟨"t", []⟩, []⟩
      (fun _ => some (.jarr [])) "[]").2 []
     (by simp [filtersFromJson, deserializeFilters, deserializeFilterList])⟩

/-- `parseLikeExpression` (filter-sql.ts, lines 474-505): translate a LIKE
pattern into a single field condition, dispatching on leading and trailing
percent signs exactly as the source does. -/
def parseLikeExpression (fieldName pattern : String) : FilterCondition :=
  if strStartsWith pattern "%" && strEndsWith pattern "%" then
    .field fieldName ⟨"contains", .scalar (.vstr (strDropRight (strDrop pattern 1) 1))⟩
  else if strStartsWith pattern "%" then
    .field fieldName ⟨"endsWith", .scalar (.vstr (strDrop pattern 1))⟩
  else if strEndsWith pattern "%" then
    .field fieldName ⟨"startsWith", .scalar (.vstr (strDropRight pattern 1))⟩
  else
    .field fieldName ⟨"contains", .scalar (.vstr pattern)⟩

/-- C8: compiling `f LIKE p` always yields one field condition on `f`,
following exactly the four-way case analysis on leading and trailing
percent signs, and never yields an `eq` condition. -/
theorem c8_like_translation (f p : String) :
    (strStartsWith p "%" = true → strEndsWith p "%" = true →
        parseLikeExpression f p
          = .field f ⟨"contains", .scalar (.vstr (strDropRight (strDrop p 1) 1))⟩)
      ∧ (strStartsWith p "%" = true → strEndsWith p "%" = false →
          parseLikeExpression f p = .field f ⟨"endsWith", .scalar (.vstr (strDrop p 1))⟩)
      ∧ (strStartsWith p "%" = false → strEndsWith p "%" = true →
          parseLikeExpression f p
            = .field f ⟨"startsWith", .scalar (.vstr (strDropRight p 1))⟩)
      ∧ (strStartsWith p "%" = false → strEndsWith p "%" = false →
          parseLikeExpression f p = .field f ⟨"contains", .scalar (.vstr p)⟩)
      ∧ ∀ (b : BasicFilter), parseLikeExpression f p = .field f b → b.op ≠ "eq" := by
  refine ⟨?_, ?_, ?_, ?_, ?_⟩
  · intro h1 h2; simp [parseLikeExpression, h1, h2]
  · intro h1 h2; simp [parseLikeExpression, h1, h2]
  · intro h1 h2; simp [parseLikeExpression, h1, h2]
  · intro h1 h2; simp [parseLikeExpression, h1, h2]
  · intro b hb
    rw [parseLikeExpression] at hb
    split at hb
    · simp only [FilterCondition.field.injEq] at hb
      rw [← hb.2]
      simp
    · split at hb
      · simp only [FilterCondition.field.injEq] at hb
        rw [← hb.2]
        simp
      · split at hb
        · simp only [FilterCondition.field.injEq] at hb
          rw [← hb.2]
          simp
        · simp only [FilterCondition.field.injEq] at hb
          rw [← hb.2]
          simp

/-- Witness for C8 on a pattern wrapped in percent signs, as in the spec
scenario filtering names containing a fragment. -/
theorem c8_like_translation_witness :
    parseLikeExpression "name" "%li%"
      = .field "name" ⟨"contains", .scalar (.vstr (strDropRight (strDrop "%li%" 1) 1))⟩ :=
  (c8_like_translation "name" "%li%").1 (by decide) (by decide)

/-- The generic comparison `a < b ? -1 : a > b ? 1 : 0` of `compare`
(helpers.ts), over any linearly ordered key. -/
def cmpLin {α : Type} [LinearOrder α] (x y : α) : Int :=
  if x < y then -1 else if y < x then 1 else 0

/-- `compare` (helpers.ts): nulls first; strings via localeCompare
(modelled as lexicographic order); numbers numerically; booleans coerce
to 0/1; the remaining mixed-type comparisons are incomparable in JS over
this value domain and are modelled as ties. -/
def jsCompare (a b : Value) : Int :=
  if a = Value.vnull then (if b = Value.vnull then 0 else -1)
  else if b = Value.vnull then 1
  else
    match a, b with
    | .vint x, .vint y => cmpLin x y
    | .vstr x, .vstr y => cmpLin x y
    | .vbool x, .vbool y => cmpLin (if x then (1 : Int) else 0) (if y then 1 else 0)
    | _, _ => 0

/-- The index comparator of the single-column sort (ArrowStore.ts, lines
736-751): null and undefined cells sort first regardless of direction;
non-null cells compare through `compare`, negated unless the direction is
asc. -/
def sortComparator (vec : Column) (direction : String) (a b : Nat) : Int :=
  if colGet vec a = Value.vnull then (if colGet vec b = Value.vnull then 0 else -1)
  else if colGet vec b = Value.vnull then 1
  else
    if direction = "asc" then jsCompare (colGet vec a) (colGet vec b)
    else -(jsCompare (colGet vec a) (colGet vec b))

/-- The comparator as the boolean precedence relation fed to the sort;
the stable JS array sort with a consistent comparator is modelled by
`mergeSort`. -/
def sortLE (vec : Column) (direction : String) (a b : Nat) : Bool :=
  decide (sortComparator vec direction a b ≤ 0)

/-- The single-column branch of `sort` (ArrowStore.ts): sort the row
indices by the comparator and rebuild every column in that order; a
missing sort column leaves the table unchanged. -/
def sortSingle (field direction : String) (t : Table) : Table :=
  match t.getChild field with
  | none => t
  | some vec =>
      ⟨t.numRows,
        t.cols.map (fun c =>
          ⟨c.name,
            ((List.range t.numRows).mergeSort (sortLE vec direction)).map
              (fun i => colGet c i)⟩)⟩

/-- Whether a cell is a JS string. -/
def Value.isString : Value → Bool
  | .vstr _ => true
  | _ => false

/-- Whether a cell is a JS boolean. -/
def Value.isBool : Value → Bool
  | .vbool _ => true
  | _ => false

/-- A typed Arrow column: every slot is null or of the column's one
runtime type (number, string or boolean). -/
def uniformCol (vals : List Value) : Bool :=
  vals.all (fun v => v.isNumber || v == Value.vnull)
    || vals.all (fun v => v.isString || v == Value.vnull)
    || vals.all (fun v => v.isBool || v == Value.vnull)

/-- Nulls form a prefix: no null cell occurs after a non-null cell. -/
def noNullAfterValue : List Value → Bool
  | [] => true
  | v :: rest =>
      if v = Value.vnull then noNullAfterValue rest
      else rest.all (fun w => decide (w ≠ Value.vnull))

theorem cmpLin_antisymm {α : Type} [LinearOrder α] (x y : α) :
    cmpLin x y = -(cmpLin y x) := by
  rcases lt_trichotomy x y with h | h | h
  · simp [cmpLin, h, asymm h]
  · simp [cmpLin, h]
  · simp [cmpLin, h, asymm h]

theorem cmpLin_le_iff {α : Type} [LinearOrder α] (x y : α) :
    cmpLin x y ≤ 0 ↔ x ≤ y := by
  rcases lt_trichotomy x y with h | h | h
  · simp [cmpLin, h, le_of_lt h]
  · simp [cmpLin, h]
  · simp [cmpLin, h, asymm h, not_le.2 h]

theorem jsCompare_antisymm (x y : Value) : jsCompare x y = -(jsCompare y x) := by
  cases x <;> cases y <;> simp [jsCompare] <;> exact cmpLin_antisymm _ _

theorem jsCompare_trans_num (x y z : Value)
    (hx : x.isNumber = true) (hy : y.isNumber = true) (hz : z.isNumber = true)
    (h1 : jsCompare x y ≤ 0) (h2 : jsCompare y z ≤ 0) : jsCompare x z ≤ 0 := by
  cases x <;> simp [Value.isNumber] at hx
  cases y <;> simp [Value.isNumber] at hy
  cases z <;> simp [Value.isNumber] at hz
  simp [jsCompare, cmpLin_le_iff] at h1 h2 ⊢
  exact le_trans h1 h2

theorem jsCompare_trans_str (x y z : Value)
    (hx : x.isString = true) (hy : y.isString = true) (hz : z.isString = true)
    (h1 : jsCompare x y ≤ 0) (h2 : jsCompare y z ≤ 0) : jsCompare x z ≤ 0 := by
  cases x <;> simp [Value.isString] at hx
  cases y <;> simp [Value.isString] at hy
  cases z <;> simp [Value.isString] at hz
  simp [jsCompare, cmpLin_le_iff] at h1 h2 ⊢
  exact le_trans h1 h2

theorem jsCompare_trans_bool (x y z : Value)
    (hx : x.isBool = true) (hy : y.isBool = true) (hz : z.isBool = true)
    (h1 : jsCompare x y ≤ 0) (h2 : jsCompare y z ≤ 0) : jsCompare x z ≤ 0 := by
  cases x <;> simp [Value.isBool] at hx
  cases y <;> simp [Value.isBool] at hy
  cases z <;> simp [Value.isBool] at hz
  simp [jsCompare, cmpLin_le_iff] at h1 h2 ⊢
  exact le_trans h1 h2

theorem sortLE_trans_abstract (vec : Column) (direction : String) (P : Value → Bool)
    (hvals : ∀ j : Nat, colGet vec j = Value.vnull ∨ P (colGet vec j) = true)
    (htr : ∀ x y z : Value, P x = true → P y = true → P z = true →
      jsCompare x y ≤ 0 → jsCompare y z ≤ 0 → jsCompare x z ≤ 0) :
    ∀ a b c : Nat, sortLE vec direction a b = true → sortLE vec direction b c = true →
      sortLE vec direction a c = true := by
  intro a b c hab hbc
  simp only [sortLE, sortComparator, decide_eq_true_eq] at hab hbc ⊢
  by_cases ha : colGet vec a = Value.vnull
  · simp only [ha, if_true]
    split <;> omega
  · simp only [ha, if_false] at hab ⊢
    by_cases hb : colGet vec b = Value.vnull
    · simp [hb] at hab
    · simp only [hb, if_false] at hab hbc
      by_cases hc : colGet vec c = Value.vnull
      · simp [hc] at hbc
      · simp only [hc, if_false] at hbc ⊢
        have hPa := (hvals a).resolve_left ha
        have hPb := (hvals b).resolve_left hb
        have hPc := (hvals c).resolve_left hc
        by_cases hdir : direction = "asc"
        · simp only [hdir, if_true] at hab hbc ⊢
          exact htr _ _ _ hPa hPb hPc hab hbc
        · simp only [hdir, if_false] at hab hbc ⊢
          have h1 : jsCompare (colGet vec b) (colGet vec a) ≤ 0 := by
            rw [jsCompare_antisymm]
            omega
          have h2 : jsCompare (colGet vec c) (colGet vec b) ≤ 0 := by
            rw [jsCompare_antisymm]
            omega
          have h3 := htr _ _ _ hPc hPb hPa h2 h1
          rw [jsCompare_antisymm] at h3
          omega

theorem sortLE_total (vec : Column) (direction : String) :
    ∀ a b : Nat, sortLE vec direction a b || sortLE vec direction b a := by
  intro a b
  simp only [sortLE, sortComparator, Bool.or_eq_true, decide_eq_true_eq]
  by_cases ha : colGet vec a = Value.vnull
  · by_cases hb : colGet vec b = Value.vnull
    · simp [ha, hb]
    · simp [ha, hb]
  · by_cases hb : colGet vec b = Value.vnull
    · simp [ha, hb]
    · simp only [ha, hb, if_false]
      have := jsCompare_antisymm (colGet vec a) (colGet vec b)
      split <;> omega

theorem pairwise_noNullAfter :
    ∀ (l : List Value), l.Pairwise (fun x y => x ≠ Value.vnull → y ≠ Value.vnull) →
      noNullAfterValue l = true := by
  intro l
  induction l with
  | nil => intro h; rfl
  | cons v rest ih =>
      intro h
      rw [List.pairwise_cons] at h
      rw [noNullAfterValue]
      by_cases hv : v = Value.vnull
      · simp only [hv, if_true]
        exact ih h.2
      · simp only [hv, if_false, List.all_eq_true]
        intro w hw
        simpa using h.1 w hw hv

theorem find?_map_name (cols : List Column) (g : Column → Column)
    (hg : ∀ c, (g c).name = c.name) (field : String) :
    ∀ (vec : Column), cols.find? (fun c => c.name == field) = some vec →
      (cols.map g).find? (fun c => c.name == field) = some (g vec) := by
  induction cols with
  | nil => intro vec h; simp [List.find?] at h
  | cons c rest ih =>
      intro vec h
      rw [List.find?_cons] at h
      rw [List.map_cons, List.find?_cons]
      by_cases hc : (c.name == field) = true
      · simp only [hc, if_true] at h ⊢
        rw [hg c, hc]
        simp only [Option.some.injEq] at h ⊢
        rw [h]
      · simp only [hc, if_false] at h ⊢
        rw [hg c]
        simp only [hc]
        exact ih vec h

theorem uniform_case (vec : Column) (P : Value → Bool)
    (h : vec.vals.all (fun v => P v || v == Value.vnull) = true) :
    ∀ j : Nat, colGet vec j = Value.vnull ∨ P (colGet vec j) = true := by
  intro j
  by_cases hr : j < vec.vals.length
  · have hget : colGet vec j = vec.vals[j] := by
      simp [colGet, List.getD_eq_getElem?_getD, List.getElem?_eq_getElem hr]
    have hmem : colGet vec j ∈ vec.vals := by
      rw [hget]
      exact List.getElem_mem hr
    have hPor := List.all_eq_true.1 h _ hmem
    rw [Bool.or_eq_true] at hPor
    rcases hPor with h2 | h2
    · exact Or.inr h2
    · exact Or.inl (by simpa using h2)
  · left
    simp [colGet, List.getD_eq_getElem?_getD,
      List.getElem?_eq_none (show vec.vals.length ≤ j by omega)]

/-- C10: sorting on a single field whose (typed) column exists places
every row with a null cell in that field before every row with a non-null
cell, for both directions: in the sorted output, the sort column has all
of its nulls as a prefix. -/
theorem c10_sort_nulls_first (t : Table) (field direction : String) (vec : Column)
    (hvec : t.getChild field = some vec) (huni : uniformCol vec.vals = true) :
    ∃ outVec, (sortSingle field direction t).getChild field = some outVec
      ∧ noNullAfterValue outVec.vals = true := by
  have huni3 : vec.vals.all (fun v => v.isNumber || v == Value.vnull) = true
      ∨ vec.vals.all (fun v => v.isString || v == Value.vnull) = true
      ∨ vec.vals.all (fun v => v.isBool || v == Value.vnull) = true := by
    rw [uniformCol, Bool.or_eq_true, Bool.or_eq_true] at huni
    tauto
  have htrans : ∀ a b c : Nat, sortLE vec direction a b = true →
      sortLE vec direction b c = true → sortLE vec direction a c = true := by
    rcases huni3 with h | h | h
    · exact sortLE_trans_abstract vec direction Value.isNumber
        (uniform_case vec Value.isNumber h) jsCompare_trans_num
    · exact sortLE_trans_abstract vec direction Value.isString
        (uniform_case vec Value.isString h) jsCompare_trans_str
    · exact sortLE_trans_abstract vec direction Value.isBool
        (uniform_case vec Value.isBool h) jsCompare_trans_bool
  have hsorted := List.sorted_mergeSort htrans (sortLE_total vec direction)
    (List.range t.numRows)
  refine ⟨⟨vec.name, ((List.range t.numRows).mergeSort (sortLE vec direction)).map
    (fun i => colGet vec i)⟩, ?_, ?_⟩
  · rw [sortSingle, hvec]
    exact find?_map_name t.cols
      (fun c => ⟨c.name, ((List.range t.numRows).mergeSort (sortLE vec direction)).map
        (fun i => colGet c i)⟩)
      (fun c => rfl) field vec hvec
  · apply pairwise_noNullAfter
    rw [List.pairwise_map]
    refine hsorted.imp ?_
    intro a b hle hna hnb
    simp only [sortLE, sortComparator, decide_eq_true_eq] at hle
    rw [if_neg hna, if_pos hnb] at hle
    omega

/-- Witness for C10 on a concrete integer column with interleaved nulls,
sorted descending. -/
theorem c10_sort_nulls_first_witness :
    ∃ outVec, (sortSingle "age" "desc"
        ⟨4, [⟨"age", [.vint 30, .vnull, .vint 25, .vnull]⟩]⟩).getChild "age" = some outVec
      ∧ noNullAfterValue outVec.vals = true :=
  c10_sort_nulls_first ⟨4, [⟨"age", [.vint 30, .vnull, .vint 25, .vnull]⟩]⟩ "age" "desc"
    ⟨"age", [.vint 30, .vnull, .vint 25, .vnull]⟩ (by decide) (by decide)

/-- Materialized rows of a table (`table.toArray()`): one record of named
cells per row, in column order. -/
def toRows (t : Table) : List (List (String × Value)) :=
  (List.range t.numRows).map (tableGetRow t)

/-- JS `row[key]`: read a field of a row record; a missing key reads as
undefined, which this value domain folds into null. -/
def rowGet (r : List (String × Value)) (k : String) : Value :=
  ((r.find? (fun p => p.1 == k)).map Prod.snd).getD Value.vnull

/-- One entry of pivot `using`: a bare field name, or an explicit spec
with field, aggregation and optional output name. -/
inductive UsingSpec where
  | plain (field : String) : UsingSpec
  | spec (field : String) (aggregation : List Value → Value) (name : Option String) : UsingSpec

/-- Normalization of a `using` entry at the top of `pivot` (helpers.ts):
a bare field gets the first-value-or-null aggregation and its own name as
output name; an explicit entry defaults its name to the field when absent
or empty (JS `using.name || String(using.field)`). -/
def normalizeUsing : UsingSpec → String × (List Value → Value) × String
  | .plain f =>
      (f, fun values => if values.length > 0 then values.getD 0 Value.vnull else Value.vnull, f)
  | .spec f agg name =>
      (f, agg,
        match name with
        | some s => if s = "" then f else s
        | none => f)

/-- One orderBy entry of a pivot. -/
structure OrderBySpec where
  field : String
  direction : String
  deriving DecidableEq, Repr

/-- The pivot configuration; `on` is kept as a list (a bare column is the
singleton case) and `usingSpecs` models the `using` list. -/
structure PivotOptions where
  onCols : List String
  usingSpecs : List UsingSpec
  groupBy : List String
  orderBy : Option (List OrderBySpec)
  limit : Option Nat

/-- Phase 1 of `pivot`: insertion-ordered distinct valid values of one
pivot column (a JS `Set` preserves insertion order). -/
def distinctValid (vals : List Value) : List Value :=
  vals.foldl (fun acc v =>
    if v = Value.vnull then acc
    else if v ∈ acc then acc else acc ++ [v]) []

/-- Distinct values per pivot column; a pivot column missing from the
table is skipped by phase 1 and then crashes phase 2 (`Array.from` of
undefined), surfacing as the wrapped pivot error. -/
def distinctPerCol (t : Table) : List String → Except String (List (String × List Value))
  | [] => .ok []
  | c :: cs =>
      match t.getChild c with
      | none => .error "Error in pivot operation: missing pivot column"
      | some vec =>
          match distinctPerCol t cs with
          | .error e => .error e
          | .ok rest => .ok ((c, distinctValid vec.vals) :: rest)

/-- `generateCartesianProduct` (helpers.ts): nested loops with the first
column outermost, accumulating the merged records in loop order. -/
def cartesianCombos : List (List (String × Value)) → List (List (String × Value))
  | [] => [[]]
  | g :: gs => g.flatMap (fun x => (cartesianCombos gs).map (fun rest => x :: rest))

/-- The pivot combinations: the fields of each combination plus its
`_pivotKey` (the single-column case tags each value with `String(val)`,
the multi-column case joins the stringified values with underscores). -/
def pivotCombos (onCols : List String) (dist : List (String × List Value)) :
    List (List (String × Value) × String) :=
  match onCols with
  | [c] =>
      (((dist.find? (fun p => p.1 == c)).map Prod.snd).getD []).map
        (fun v => ([(c, v)], jsStringV v))
  | _ =>
      (cartesianCombos (onCols.map (fun col =>
        (((dist.find? (fun p => p.1 == col)).map Prod.snd).getD []).map
          (fun v => (col, v))))).map
        (fun fs =>
          (fs, String.intercalate "_" (onCols.map (fun col => jsStringV (rowGet fs col)))))

/-- Split on dots, for `order.field.split('.')`. -/
def splitDot : List Char → List (List Char)
  | [] => [[]]
  | c :: rest =>
      if c = Char.ofNat 46 then [] :: splitDot rest
      else
        match splitDot rest with
        | [] => [[c]]
        | g :: gs => (c :: g) :: gs

/-- The last dot segment of an orderBy field name. -/
def lastSegment (s : String) : String :=
  ⟨(splitDot s.toList).getLastD []⟩

/-- JS `fieldName in combo`: the combination records hold the on-column
fields plus `_pivotKey`. -/
def comboHas (combo : List (String × Value) × String) (k : String) : Bool :=
  k == "_pivotKey" || combo.1.any (fun p => p.1 == k)

/-- Field read on a combination record. -/
def comboVal (combo : List (String × Value) × String) (k : String) : Value :=
  if k == "_pivotKey" then .vstr combo.2 else rowGet combo.1 k

/-- The orderBy comparator over pivot combinations (helpers.ts, lines
532-552): walk the orderBy entries; an entry whose field (last dot
segment) is present in both combinations and distinguishes them decides,
descending by swapping the arguments of `compare`; otherwise the next
entry is consulted. -/
def comboCompare (specs : List OrderBySpec)
    (a b : List (String × Value) × String) : Int :=
  match specs with
  | [] => 0
  | o :: rest =>
      let fn := lastSegment o.field
      if comboHas a fn && comboHas b fn then
        if comboVal a fn ≠ comboVal b fn then
          (if o.direction = "asc" then jsCompare (comboVal a fn) (comboVal b fn)
           else jsCompare (comboVal b fn) (comboVal a fn))
        else comboCompare rest a b
      else comboCompare rest a b

/-- Composite group key over the groupBy columns, joined by vertical
bars. -/
def groupKey (groupCols : List String) (r : List (String × Value)) : String :=
  String.intercalate "|" (groupCols.map (fun col => jsStringV (rowGet r col)))

/-- Insert one row into the insertion-ordered groups (a JS `Map`
preserves insertion order). -/
def addRowGroup (groupCols : List String)
    (acc : List (String × List (List (String × Value))))
    (row : List (String × Value)) : List (String × List (List (String × Value))) :=
  let key := groupKey groupCols row
  if acc.any (fun g => g.1 == key) then
    acc.map (fun g => if g.1 == key then (g.1, g.2 ++ [row]) else g)
  else acc ++ [(key, [row])]

/-- Phase 2 of `pivot`: group the rows by composite key in
first-occurrence order. -/
def groupRows (groupCols : List String) (rows : List (List (String × Value))) :
    List (String × List (List (String × Value))) :=
  rows.foldl (addRowGroup groupCols) []

/-- One output row of `pivot`: the groupBy cells of the bucket head, then
one aggregated cell per (combination, value column) pair; the cell is
named `name_pivotKey` when the name was explicitly provided (differs from
the field) and just `pivotKey` otherwise. -/
def buildResultRow (onCols : List String)
    (combos : List (List (String × Value) × String))
    (valueCols : List (String × (List Value → Value) × String))
    (groupCols : List String)
    (bucket : List (List (String × Value))) : List (String × Value) :=
  groupCols.map (fun col => (col, rowGet (bucket.headD []) col))
    ++ combos.flatMap (fun combo =>
        valueCols.map (fun vc =>
          ((if vc.2.2 ≠ vc.1 then vc.2.2 ++ "_" ++ combo.2 else combo.2),
            vc.2.1 (((bucket.filter (fun row =>
              onCols.all (fun col => rowGet row col == rowGet combo.1 col)))).map
                (fun row => rowGet row vc.1)))))

/-- `pivot` (helpers.ts, lines 461-628), modelled up to its output row
list (the final `tableFromArrays(arrayToColumnarFormat(...))` transposes
these rows into columns, all rows carrying the same keys): distinct pivot
values per on-column, combinations sorted by `orderBy` when present and
non-empty (the stable JS array sort is modelled by mergeSort), rows
grouped by the groupBy key in first-occurrence order, one output row per
group, and a truthy `limit` truncating the output rows. -/
def pivotRows (t : Table) (opts : PivotOptions) :
    Except String (List (List (String × Value))) :=
  match distinctPerCol t opts.onCols with
  | .error e => .error e
  | .ok dist =>
      let combos0 := pivotCombos opts.onCols dist
      let combos :=
        match opts.orderBy with
        | some specs =>
            if specs.length > 0 then
              combos0.mergeSort (fun a b => decide (comboCompare specs a b ≤ 0))
            else combos0
        | none => combos0
      let result := (groupRows opts.groupBy (toRows t)).map
        (fun g => buildResultRow opts.onCols combos (opts.usingSpecs.map normalizeUsing)
          opts.groupBy g.2)
      .ok
        (match opts.limit with
         | some l => if l ≠ 0 then result.take l else result
         | none => result)

/-- The row comparison the spec claims `orderBy` performs on output rows:
the named fields in order, each in its direction, ties broken by the
later entries (written from the claim wording, for the refutation). -/
def rowsCompareSpec (specs : List OrderBySpec) (a b : List (String × Value)) : Int :=
  match specs with
  | [] => 0
  | o :: rest =>
      let c := jsCompare (rowGet a o.field) (rowGet b o.field)
      let d := if o.direction = "asc" then c else -c
      if d ≠ 0 then d else rowsCompareSpec rest a b

/-- Spec-claimed sortedness of the output rows under the orderBy list. -/
def rowsSortedSpec (specs : List OrderBySpec)
    (rows : List (List (String × Value))) : Prop :=
  rows.Pairwise (fun a b => rowsCompareSpec specs a b ≤ 0)

/-- The groupBy projection of an output row. -/
def projGroup (groupCols : List String) (r : List (String × Value)) : List Value :=
  groupCols.map (fun col => rowGet r col)

/-- C7 as stated is violated: pivoting two products over one region with
`orderBy product desc` leaves the output rows in group first-occurrence
order (product 1 before product 2), not in the claimed descending row
order. -/
theorem c7_orderby_rows_counterexample :
    pivotRows ⟨2, [⟨"product", [.vint 1, .vint 2]⟩,
                   ⟨"region", [.vstr "N", .vstr "N"]⟩,
                   ⟨"sales", [.vint 10, .vint 20]⟩]⟩
        ⟨["region"], [.plain "sales"], ["product"], some [⟨"product", "desc"⟩], none⟩
      = .ok [[("product", .vint 1), ("N", .vint 10)],
             [("product", .vint 2), ("N", .vint 20)]]
      ∧ ¬ rowsSortedSpec [⟨"product", "desc"⟩]
          [[("product", .vint 1), ("N", .vint 10)],
           [("product", .vint 2), ("N", .vint 20)]] := by
  constructor
  · have h1 : distinctValid [Value.vstr "N", Value.vstr "N"] = [Value.vstr "N"] := by decide
    simp [pivotRows, distinctPerCol, Table.getChild, pivotCombos, h1]
    decide
  · intro h
    rw [rowsSortedSpec] at h
    rw [List.pairwise_cons] at h
    have := h.1 _ (List.mem_cons_self _ _)
    exact absurd this (by decide)

theorem find?_keyed_map (cols : List String) (f : String → Value) (col : String) :
    col ∈ cols →
      (cols.map (fun c => (c, f c))).find? (fun p => p.1 == col) = some (col, f col) := by
  induction cols with
  | nil => intro h; cases h
  | cons c rest ih =>
      intro h
      rw [List.map_cons, List.find?_cons]
      by_cases hc : c = col
      · subst hc
        simp
      · have hcol : col ∈ rest := by
          rcases List.mem_cons.1 h with h1 | h1
          · exact absurd h1.symm hc
          · exact h1
        have hbe : ((c, f c).1 == col) = false := by
          simp [hc]
        rw [hbe]
        exact ih hcol

theorem rowGet_buildResultRow (onCols : List String)
    (combos : List (List (String × Value) × String))
    (valueCols : List (String × (List Value → Value) × String))
    (groupCols : List String) (bucket : List (List (String × Value)))
    (col : String) (hcol : col ∈ groupCols) :
    rowGet (buildResultRow onCols combos valueCols groupCols bucket) col
      = rowGet (bucket.headD []) col := by
  rw [buildResultRow, rowGet, List.find?_append]
  rw [find?_keyed_map groupCols (fun c => rowGet (bucket.headD []) c) col hcol]
  simp

/-- C7 amended: pivot `orderBy` does not order the output rows.  The
groupBy projection of the output rows is identical under any two orderBy
configurations (the rows stay in group first-occurrence order; orderBy
only rearranges the pivot-value combinations, which drive the generated
pivoted cells).  A non-zero `limit` truncates the output rows, taken from
that group order. -/
theorem c7_pivot_orderby_limit (t : Table) (onCols : List String)
    (us : List UsingSpec) (gb : List String)
    (ob1 ob2 : Option (List OrderBySpec)) (lim : Option Nat) :
    ((pivotRows t ⟨onCols, us, gb, ob1, lim⟩).map (fun rows => rows.map (projGroup gb)))
      = ((pivotRows t ⟨onCols, us, gb, ob2, lim⟩).map (fun rows => rows.map (projGroup gb)))
    ∧ ∀ l : Nat, l ≠ 0 →
        pivotRows t ⟨onCols, us, gb, ob1, some l⟩
          = (pivotRows t ⟨onCols, us, gb, ob1, none⟩).map (fun rows => rows.take l) := by
  constructor
  · cases hdist : distinctPerCol t onCols with
    | error e => simp [pivotRows, hdist, Except.map]
    | ok dist =>
        simp only [pivotRows, hdist, Except.map]
        have hproj : ∀ (combos : List (List (String × Value) × String)),
            ((groupRows gb (toRows t)).map
              (fun g => buildResultRow onCols combos (us.map normalizeUsing) gb g.2)).map
                (projGroup gb)
              = (groupRows gb (toRows t)).map (fun g => projGroup gb (g.2.headD [])) := by
          intro combos
          rw [List.map_map]
          apply List.map_congr_left
          intro g _
          show projGroup gb (buildResultRow onCols combos (us.map normalizeUsing) gb g.2) = _
          rw [projGroup, projGroup]
          apply List.map_congr_left
          intro col hcol
          exact rowGet_buildResultRow onCols combos (us.map normalizeUsing) gb g.2 col hcol
        cases lim with
        | none =>
            simp only []
            rw [hproj, hproj]
        | some l =>
            simp only []
            by_cases hl : l ≠ 0
            · simp only [if_pos hl, List.map_take]
              rw [hproj, hproj]
            · simp only [if_neg hl]
              rw [hproj, hproj]
  · intro l hl
    cases hdist : distinctPerCol t onCols with
    | error e => simp [pivotRows, hdist, Except.map]
    | ok dist =>
        simp only [pivotRows, hdist, Except.map, if_pos hl]

/-- Witness for C7 amended: the concrete counterexample table with limit
one and the two orderBy configurations. -/
theorem c7_pivot_orderby_limit_witness :
    pivotRows ⟨2, [⟨"product", [.vstr "A", .vstr "B"]⟩,
                   ⟨"region", [.vstr "N", .vstr "N"]⟩,
                   ⟨"sales", [.vint 1, .vint 2]⟩]⟩
        ⟨["region"], [.plain "sales"], ["product"], some [⟨"product", "desc"⟩], some 1⟩
      = (pivotRows ⟨2, [⟨"product", [.vstr "A", .vstr "B"]⟩,
                        ⟨"region", [.vstr "N", .vstr "N"]⟩,
                        ⟨"sales", [.vint 1, .vint 2]⟩]⟩
          ⟨["region"], [.plain "sales"], ["product"], some [⟨"product", "desc"⟩], none⟩).map
            (fun rows => rows.take 1) :=
  (c7_pivot_orderby_limit ⟨2, [⟨"product", [.vstr "A", .vstr "B"]⟩,
      ⟨"region", [.vstr "N", .vstr "N"]⟩, ⟨"sales", [.vint 1, .vint 2]⟩]⟩
    ["region"] [.plain "sales"] ["product"]
    (some [⟨"product", "desc"⟩]) (some [⟨"product", "desc"⟩]) none).2 1 (by decide)

end AStore
